import Mathlib

/-!
Verification development for the pathfinder core (src/src/pathfinder.c).

The C program performs a recursive branch-and-bound depth-first search
(find_all_from_to / explore_neighbors) enumerating, for a pair of
vertices, every minimum-weight simple path between them, accumulating the
result in a t_path_list (reached_destination / add_path), and an outer
enumeration (find_all_from / execute_pathfinding) running the search over
pairs of listed vertices.

Shallow embedding conventions:
* machine ints are modelled as unbounded Int; INT_MAX is the literal
  2147483647 (limits.h); claims about minimality carry hypotheses keeping
  all path weights below INT_MAX, which is where the C program itself is
  free of signed overflow.
* pathfinder.h is not part of src/, so INIT (the no-edge sentinel stored
  in the adjacency matrix, per the spec a reserved marker distinct from
  the non-negative edge weights) is modelled as the Int value -1.
* the path buffer (int *path plus path_index) is modelled as a List Nat
  holding exactly the active prefix path[0 .. path_index); path_index is
  its length.  visited is a Nat → Bool map.  A stored t_path
  (vertices pointer plus length field) is modelled as the List Nat of its
  vertices.
* mx_realloc in add_path can return NULL; the allocation outcomes are
  threaded through every function as a List Bool oracle (head = outcome
  of the next mx_realloc call; an exhausted oracle means success, so []
  is the run in which every allocation succeeds).
* the C recursion has no fuel; the embedding adds a fuel argument and
  returns none on exhaustion.  Fuel g.size + 1 is proved sufficient
  (the termination claim), so none never occurs on the calls the C
  program performs.
-/

/-- INT_MAX from limits.h (32-bit int). -/
def INT_MAX : Int := 2147483647

/-- Modelled from the spec: pathfinder.h is absent from src/.  INIT is the
"no edge" sentinel value stored in adjacency-matrix entries, a reserved
marker distinct from every non-negative edge weight; modelled as -1. -/
def INIT : Int := -1

/-- The adjacency-matrix graph (t_graph from pathfinder.h): a size and a
square matrix of int entries, entry (i, j) being INIT or the weight of
the edge i → j. -/
structure t_graph where
  size : Nat
  matrix : Nat → Nat → Int

/-- t_path_info: the mutable search state.  path models the active buffer
prefix path[0 .. path_index), so path_index is path.length. -/
structure t_path_info where
  visited : Nat → Bool
  path : List Nat
  weight : Int

/-- t_path_list: the accumulated result set.  count is paths.length. -/
structure t_path_list where
  paths : List (List Nat)
  min_len : Int
deriving DecidableEq

/-- t_data: the program data consumed by the search (graph plus the node
list; nodes are modelled by their ids). -/
structure t_data where
  graph : t_graph
  nodes : List Nat

/-- create_path_info: fresh search state (calloc'd visited, empty path,
weight 0).  The num_vertices argument only sizes the C allocations. -/
def create_path_info (num_vertices : Nat) : t_path_info :=
  { visited := fun _ => false, path := [], weight := 0 }

/-- create_paths: fresh result list, min_len = INT_MAX. -/
def create_paths : t_path_list :=
  { paths := [], min_len := INT_MAX }

/-- add_path: grow the list with mx_realloc and append a copy of the first
length entries of current_path.  If mx_realloc returns NULL (next oracle
entry false) the function prints a diagnostic to stderr and returns with
the list untouched. -/
def add_path (alloc : List Bool) (all_paths : t_path_list)
    (current_path : List Nat) (length : Nat) : List Bool × t_path_list :=
  match alloc with
  | false :: rest => (rest, all_paths)
  | true :: rest =>
      (rest, { all_paths with paths := all_paths.paths ++ [current_path.take length] })
  | [] => ([], { all_paths with paths := all_paths.paths ++ [current_path.take length] })

/-- reached_destination: if the candidate weight improves min_len, free
every stored path and set min_len to it; then, if the candidate weight
equals min_len, append a copy of the current path buffer. -/
def reached_destination (alloc : List Bool) (path_info : t_path_info)
    (all_paths : t_path_list) : List Bool × t_path_list :=
  let all_paths1 :=
    if path_info.weight < all_paths.min_len then
      { paths := ([] : List (List Nat)), min_len := path_info.weight }
    else all_paths
  if path_info.weight = all_paths1.min_len then
    add_path alloc all_paths1 path_info.path path_info.path.length
  else (alloc, all_paths1)

/-- explore_neighbors: the loop for (i = 0; i < size; i++) of the C
function, embedded with an explicit iteration counter rem (the loop is
entered with rem = size, so the i < size test fails before rem runs
out).  rec is the recursive call into find_all_from_to (the target is
closed over).  For every existing edge (matrix entry ≠ INIT) to an
unvisited i whose weight keeps the running weight within min_len (note
≤, not <), push the edge weight, recurse, and pop the weight back. -/
def explore_neighbors (g : t_graph)
    (rec : Nat → List Bool → t_path_info → t_path_list →
      Option (List Bool × t_path_info × t_path_list))
    (frm : Nat) : Nat → Nat → List Bool → t_path_info → t_path_list →
    Option (List Bool × t_path_info × t_path_list)
  | 0, _, alloc, info, ap => some (alloc, info, ap)
  | rem + 1, i, alloc, info, ap =>
    if i < g.size then
      if g.matrix frm i ≠ INIT ∧ info.visited i = false ∧
          info.weight + g.matrix frm i ≤ ap.min_len then
        match rec i alloc { info with weight := info.weight + g.matrix frm i } ap with
        | none => none
        | some (alloc2, info2, ap2) =>
            explore_neighbors g rec frm rem (i + 1) alloc2
              { info2 with weight := info2.weight - g.matrix frm i } ap2
      else
        explore_neighbors g rec frm rem (i + 1) alloc info ap
    else
      some (alloc, info, ap)

/-- find_all_from_to: mark frm visited and append it to the path buffer;
if the target is reached, record the candidate, otherwise explore the
neighbors; finally pop frm from the buffer and unmark it.  The C
recursion carries no fuel; the embedding consumes one fuel per level and
returns none on exhaustion (never reached for fuel ≥ size). -/
def find_all_from_to (g : t_graph) : Nat → Nat → Nat → List Bool →
    t_path_info → t_path_list → Option (List Bool × t_path_info × t_path_list)
  | 0, _, _, _, _, _ => none
  | fuel + 1, frm, tgt, alloc, info, ap =>
    let info1 : t_path_info :=
      { info with visited := fun j => if j = frm then true else info.visited j,
                  path := info.path ++ [frm] }
    let step :=
      if frm = tgt then
        let r := reached_destination alloc info1 ap
        some (r.1, info1, r.2)
      else
        explore_neighbors g
          (fun i al inf p => find_all_from_to g fuel i tgt al inf p)
          frm g.size 0 alloc info1 ap
    match step with
    | none => none
    | some (alloc2, info2, ap2) =>
        some (alloc2,
          { info2 with path := info2.path.dropLast,
                       visited := fun j => if j = frm then false else info2.visited j },
          ap2)

/-- find_all_from: run the search from the node in the start cell to every
node after it in the list, each on freshly created state (the result
handed to display_paths is collected here). -/
def find_all_from (data : t_data) (start : Nat) (rest : List Nat) :
    List ((Nat × Nat) × Option (List Bool × t_path_info × t_path_list)) :=
  rest.map fun tgt =>
    ((start, tgt),
      find_all_from_to data.graph (data.graph.size + 1) start tgt []
        (create_path_info data.graph.size) create_paths)

/-- execute_pathfinding: iterate every cell of data->nodes and call
find_all_from on it (the targets being the cells after it). -/
def execute_pathfinding_aux (data : t_data) : List Nat →
    List ((Nat × Nat) × Option (List Bool × t_path_info × t_path_list))
  | [] => []
  | s :: rest => find_all_from data s rest ++ execute_pathfinding_aux data rest

/-- execute_pathfinding: the outer enumeration over data->nodes. -/
def execute_pathfinding (data : t_data) :
    List ((Nat × Nat) × Option (List Bool × t_path_info × t_path_list)) :=
  execute_pathfinding_aux data data.nodes

/-- Total weight of a vertex sequence: the sum of the matrix entries of
its consecutive pairs. -/
def pathWeight (g : t_graph) : List Nat → Int
  | u :: v :: rest => g.matrix u v + pathWeight g (v :: rest)
  | _ => 0

/-- A simple path from s to t: nonempty, starts at s, ends at t, every
consecutive pair an existing edge, no vertex repeated, all vertices in
range (spec §3 and glossary). -/
def SimplePathFromTo (g : t_graph) (s t : Nat) (p : List Nat) : Prop :=
  p.head? = some s ∧ p.getLast? = some t ∧
    List.Chain' (fun u v => g.matrix u v ≠ INIT) p ∧
    p.Nodup ∧ ∀ x ∈ p, x < g.size

/-- Reference enumeration of the candidate set, mirroring
explore_neighbors without the weight bound: paths leaving u through the
neighbors i, i+1, ..., size-1 (each returned path starts at the
neighbor; rec enumerates from a neighbor). -/
def dfsFrom (g : t_graph) (rec : Nat → List (List Nat)) (u : Nat)
    (visited : Nat → Bool) : Nat → Nat → List (List Nat)
  | 0, _ => []
  | rem + 1, i =>
    if i < g.size then
      (if g.matrix u i ≠ INIT ∧ visited i = false then rec i else []) ++
        dfsFrom g rec u visited rem (i + 1)
    else []

/-- Reference enumeration, mirroring find_all_from_to without the weight
bound: all simple paths from u to t avoiding visited, in discovery
order. -/
def dfsPaths (g : t_graph) : Nat → Nat → Nat → (Nat → Bool) → List (List Nat)
  | 0, _, _, _ => []
  | fuel + 1, u, t, visited =>
    if u = t then [[t]]
    else
      let visited1 := fun j => if j = u then true else visited j
      (dfsFrom g (fun i => dfsPaths g fuel i t visited1) u visited1 g.size 0).map
        (fun p => u :: p)

/-- The pure recording step: what reached_destination (with every
allocation succeeding) does to the result list for a completed candidate
path, its weight computed from the graph. -/
def recordPath (g : t_graph) (ap : t_path_list) (p : List Nat) : t_path_list :=
  (reached_destination [] { visited := fun _ => false, path := p, weight := pathWeight g p } ap).2

/-! ### Basic facts about pathWeight -/

theorem pathWeight_nil (g : t_graph) : pathWeight g [] = 0 := rfl

theorem pathWeight_single (g : t_graph) (u : Nat) : pathWeight g [u] = 0 := rfl

theorem pathWeight_cons_cons (g : t_graph) (u v : Nat) (r : List Nat) :
    pathWeight g (u :: v :: r) = g.matrix u v + pathWeight g (v :: r) := rfl

theorem pathWeight_append_cons (g : t_graph) :
    ∀ (xs : List Nat) (y : Nat) (ys : List Nat),
      pathWeight g (xs ++ y :: ys) = pathWeight g (xs ++ [y]) + pathWeight g (y :: ys) := by
  intro xs
  induction xs with
  | nil => intro y ys; simp [pathWeight_single]
  | cons x xs ih =>
      intro y ys
      cases xs with
      | nil => simp [pathWeight_cons_cons, pathWeight_single]
      | cons a as =>
          have ih2 := ih y ys
          simp only [List.cons_append] at ih2 ⊢
          rw [pathWeight_cons_cons, pathWeight_cons_cons, ih2]
          ring

theorem pathWeight_push (g : t_graph) :
    ∀ (q : List Nat) (u i : Nat), q.getLast? = some u →
      pathWeight g (q ++ [i]) = pathWeight g q + g.matrix u i := by
  intro q
  induction q with
  | nil => intro u i h; simp at h
  | cons a q ih =>
      intro u i h
      cases q with
      | nil =>
          simp at h
          subst h
          simp [pathWeight_cons_cons, pathWeight_single, pathWeight_nil]
      | cons b q2 =>
          rw [List.getLast?_cons_cons] at h
          have := ih u i h
          have h1 : (a :: b :: q2) ++ [i] = a :: ((b :: q2) ++ [i]) := by simp
          rw [h1]
          have h2 : (b :: q2) ++ [i] = b :: (q2 ++ [i]) := by simp
          rw [h2] at this ⊢
          rw [show a :: b :: (q2 ++ [i]) = a :: (b :: (q2 ++ [i])) from rfl,
            pathWeight_cons_cons, this, pathWeight_cons_cons]
          ring

theorem pathWeight_nonneg (g : t_graph)
    (hnn : ∀ i, i < g.size → ∀ j, j < g.size → g.matrix i j ≠ INIT → 0 ≤ g.matrix i j) :
    ∀ (p : List Nat), List.Chain' (fun u v => g.matrix u v ≠ INIT) p →
      (∀ x ∈ p, x < g.size) → 0 ≤ pathWeight g p := by
  intro p
  induction p with
  | nil => intro _ _; simp [pathWeight_nil]
  | cons a q ih =>
      intro hc hb
      cases q with
      | nil => simp [pathWeight_single]
      | cons b q2 =>
          rw [List.chain'_cons] at hc
          rw [pathWeight_cons_cons]
          have hnn1 : 0 ≤ g.matrix a b :=
            hnn a (hb a (by simp)) b (hb b (by simp)) hc.1
          have h2 : 0 ≤ pathWeight g (b :: q2) :=
            ih hc.2 (fun x hx => hb x (List.mem_cons_of_mem a hx))
          omega

theorem pathWeight_ub (g : t_graph) (W : Int)
    (hub : ∀ i, i < g.size → ∀ j, j < g.size → g.matrix i j ≠ INIT → g.matrix i j ≤ W)
    (hW0 : 0 ≤ W) :
    ∀ (p : List Nat), List.Chain' (fun u v => g.matrix u v ≠ INIT) p →
      (∀ x ∈ p, x < g.size) → pathWeight g p ≤ (p.length : Int) * W := by
  intro p
  induction p with
  | nil => intro _ _; simp [pathWeight_nil]
  | cons a q ih =>
      intro hc hb
      cases q with
      | nil => simp [pathWeight_single]; positivity
      | cons b q2 =>
          rw [List.chain'_cons] at hc
          rw [pathWeight_cons_cons]
          have h1 : g.matrix a b ≤ W :=
            hub a (hb a (by simp)) b (hb b (by simp)) hc.1
          have h2 : pathWeight g (b :: q2) ≤ ((b :: q2).length : Int) * W :=
            ih hc.2 (fun x hx => hb x (List.mem_cons_of_mem a hx))
          have h3 : ((a :: b :: q2).length : Int) = ((b :: q2).length : Int) + 1 := by
            simp
          rw [h3]
          nlinarith

/-! ### Facts about List.foldl min over Int -/

theorem foldlMin_le_init : ∀ (l : List Int) (a : Int), l.foldl min a ≤ a := by
  intro l
  induction l with
  | nil => intro a; simp
  | cons b l ih =>
      intro a
      calc (b :: l).foldl min a = l.foldl min (min a b) := rfl
        _ ≤ min a b := ih _
        _ ≤ a := min_le_left _ _

theorem foldlMin_le_mem : ∀ (l : List Int) (a b : Int), b ∈ l → l.foldl min a ≤ b := by
  intro l
  induction l with
  | nil => intro a b h; simp at h
  | cons c l ih =>
      intro a b h
      rcases List.mem_cons.mp h with h | h
      · subst h
        calc (b :: l).foldl min a = l.foldl min (min a b) := rfl
          _ ≤ min a b := foldlMin_le_init _ _
          _ ≤ b := min_le_right _ _
      · exact ih (min a c) b h

theorem foldlMin_lb : ∀ (l : List Int) (a c : Int), c ≤ a → (∀ b ∈ l, c ≤ b) →
    c ≤ l.foldl min a := by
  intro l
  induction l with
  | nil => intro a c h _; simpa using h
  | cons b l ih =>
      intro a c h hl
      exact ih (min a b) c (le_min h (hl b (by simp))) (fun x hx => hl x (by simp [hx]))

theorem foldlMin_mem_or : ∀ (l : List Int) (a : Int),
    l.foldl min a = a ∨ l.foldl min a ∈ l := by
  intro l
  induction l with
  | nil => intro a; left; rfl
  | cons b l ih =>
      intro a
      have : (b :: l).foldl min a = l.foldl min (min a b) := rfl
      rw [this]
      rcases ih (min a b) with h | h
      · rcases le_total a b with hab | hab
        · left; rw [h, min_eq_left hab]
        · right; rw [h, min_eq_right hab]; simp
      · right; simp [h]

/-! ### The pure recording step and the accumulator invariant -/

/-- The invariant of the result list: every stored path has weight
exactly min_len (spec §3). -/
def listINV (g : t_graph) (ap : t_path_list) : Prop :=
  ∀ p ∈ ap.paths, pathWeight g p = ap.min_len

theorem recordPath_lt (g : t_graph) (ap : t_path_list) (p : List Nat)
    (h : pathWeight g p < ap.min_len) :
    recordPath g ap p = { paths := [p], min_len := pathWeight g p } := by
  simp [recordPath, reached_destination, add_path, h, List.take_length]

theorem recordPath_eq (g : t_graph) (ap : t_path_list) (p : List Nat)
    (h : pathWeight g p = ap.min_len) :
    recordPath g ap p = { paths := ap.paths ++ [p], min_len := ap.min_len } := by
  have h2 : ¬ pathWeight g p < ap.min_len := by omega
  simp [recordPath, reached_destination, add_path, h, h2, List.take_length]

theorem recordPath_gt (g : t_graph) (ap : t_path_list) (p : List Nat)
    (h : ap.min_len < pathWeight g p) :
    recordPath g ap p = ap := by
  have h2 : ¬ pathWeight g p < ap.min_len := by omega
  have h3 : ¬ pathWeight g p = ap.min_len := by omega
  simp [recordPath, reached_destination, add_path, h2, h3]

theorem recordPath_min (g : t_graph) (ap : t_path_list) (p : List Nat) :
    (recordPath g ap p).min_len = min ap.min_len (pathWeight g p) := by
  rcases lt_trichotomy (pathWeight g p) ap.min_len with h | h | h
  · rw [recordPath_lt g ap p h]; simp; omega
  · rw [recordPath_eq g ap p h]; simp; omega
  · rw [recordPath_gt g ap p h]; simp; omega

theorem listINV_recordPath (g : t_graph) (ap : t_path_list) (p : List Nat)
    (h : listINV g ap) : listINV g (recordPath g ap p) := by
  rcases lt_trichotomy (pathWeight g p) ap.min_len with hw | hw | hw
  · rw [recordPath_lt g ap p hw]
    intro q hq
    simp at hq
    subst hq
    rfl
  · rw [recordPath_eq g ap p hw]
    intro q hq
    simp at hq
    rcases hq with hq | hq
    · exact h q hq
    · subst hq; exact hw
  · rw [recordPath_gt g ap p hw]
    exact h

theorem listINV_foldl (g : t_graph) :
    ∀ (l : List (List Nat)) (ap : t_path_list), listINV g ap →
      listINV g (l.foldl (recordPath g) ap) := by
  intro l
  induction l with
  | nil => intro ap h; exact h
  | cons p l ih =>
      intro ap h
      exact ih (recordPath g ap p) (listINV_recordPath g ap p h)

theorem foldl_recordPath_min (g : t_graph) :
    ∀ (l : List (List Nat)) (ap : t_path_list),
      (l.foldl (recordPath g) ap).min_len =
        (l.map (pathWeight g)).foldl min ap.min_len := by
  intro l
  induction l with
  | nil => intro ap; rfl
  | cons p l ih =>
      intro ap
      have h1 : ((p :: l).foldl (recordPath g) ap) =
          l.foldl (recordPath g) (recordPath g ap p) := rfl
      rw [h1, ih, recordPath_min]
      rfl

theorem foldl_recordPath_noop (g : t_graph) :
    ∀ (l : List (List Nat)) (ap : t_path_list),
      (∀ p ∈ l, ap.min_len < pathWeight g p) →
      l.foldl (recordPath g) ap = ap := by
  intro l
  induction l with
  | nil => intro ap _; rfl
  | cons p l ih =>
      intro ap h
      have h1 : recordPath g ap p = ap := recordPath_gt g ap p (h p (by simp))
      have h2 : ((p :: l).foldl (recordPath g) ap) =
          l.foldl (recordPath g) (recordPath g ap p) := rfl
      rw [h2, h1]
      exact ih ap (fun q hq => h q (by simp [hq]))

theorem foldl_recordPath_mem (g : t_graph) :
    ∀ (l : List (List Nat)) (ap : t_path_list), listINV g ap →
      ∀ x, (x ∈ (l.foldl (recordPath g) ap).paths ↔
        (x ∈ ap.paths ∧ ∀ p ∈ l, ap.min_len ≤ pathWeight g p) ∨
        (x ∈ l ∧ pathWeight g x = (l.map (pathWeight g)).foldl min ap.min_len)) := by
  intro l
  induction l with
  | nil =>
      intro ap _ x
      simp
  | cons p l ih =>
      intro ap hinv x
      have hstep : ((p :: l).foldl (recordPath g) ap) =
          l.foldl (recordPath g) (recordPath g ap p) := rfl
      have hminstep : ((p :: l).map (pathWeight g)).foldl min ap.min_len =
          (l.map (pathWeight g)).foldl min (min ap.min_len (pathWeight g p)) := rfl
      rw [hstep, hminstep]
      rcases lt_trichotomy (pathWeight g p) ap.min_len with hw | hw | hw
      · -- strictly better candidate: reset to the singleton
        rw [recordPath_lt g ap p hw]
        have hinv2 : listINV g { paths := [p], min_len := pathWeight g p } := by
          intro q hq; rw [List.mem_singleton] at hq; subst hq; rfl
        rw [ih { paths := [p], min_len := pathWeight g p } hinv2 x]
        have hmm : min ap.min_len (pathWeight g p) = pathWeight g p := by omega
        rw [hmm]
        constructor
        · rintro (⟨hx, hall⟩ | ⟨hx, hx2⟩)
          · rw [List.mem_singleton] at hx
            subst hx
            refine Or.inr ⟨List.mem_cons_self _ _, ?_⟩
            have h1 : (l.map (pathWeight g)).foldl min (pathWeight g x) ≤ pathWeight g x :=
              foldlMin_le_init _ _
            have h2 : pathWeight g x ≤ (l.map (pathWeight g)).foldl min (pathWeight g x) := by
              refine foldlMin_lb _ _ _ le_rfl ?_
              intro b hb
              rcases List.mem_map.mp hb with ⟨q, hq, rfl⟩
              exact hall q hq
            omega
          · exact Or.inr ⟨List.mem_cons_of_mem p hx, hx2⟩
        · rintro (⟨hx, hall⟩ | ⟨hx, hx2⟩)
          · exfalso
            have := hall p (List.mem_cons_self _ _)
            omega
          · rcases List.mem_cons.mp hx with hx | hx
            · subst hx
              refine Or.inl ⟨List.mem_singleton.mpr rfl, ?_⟩
              intro q hq
              show pathWeight g x ≤ pathWeight g q
              have h1 : (l.map (pathWeight g)).foldl min (pathWeight g x) ≤ pathWeight g q :=
                foldlMin_le_mem _ _ _ (List.mem_map.mpr ⟨q, hq, rfl⟩)
              omega
            · exact Or.inr ⟨hx, hx2⟩
      · -- tie: append
        rw [recordPath_eq g ap p hw]
        have hinv2 : listINV g { paths := ap.paths ++ [p], min_len := ap.min_len } := by
          intro q hq
          rcases List.mem_append.mp hq with hq | hq
          · exact hinv q hq
          · rw [List.mem_singleton] at hq; subst hq; exact hw
        rw [ih { paths := ap.paths ++ [p], min_len := ap.min_len } hinv2 x]
        have hmm : min ap.min_len (pathWeight g p) = ap.min_len := by omega
        rw [hmm]
        constructor
        · rintro (⟨hx, hall⟩ | ⟨hx, hx2⟩)
          · rcases List.mem_append.mp hx with hx | hx
            · refine Or.inl ⟨hx, ?_⟩
              intro q hq
              rcases List.mem_cons.mp hq with hq | hq
              · subst hq; omega
              · exact hall q hq
            · rw [List.mem_singleton] at hx
              subst hx
              refine Or.inr ⟨List.mem_cons_self _ _, ?_⟩
              have h1 : (l.map (pathWeight g)).foldl min ap.min_len ≤ ap.min_len :=
                foldlMin_le_init _ _
              have h2 : ap.min_len ≤ (l.map (pathWeight g)).foldl min ap.min_len := by
                refine foldlMin_lb _ _ _ le_rfl ?_
                intro b hb
                rcases List.mem_map.mp hb with ⟨q, hq, rfl⟩
                exact hall q hq
              omega
          · exact Or.inr ⟨List.mem_cons_of_mem p hx, hx2⟩
        · rintro (⟨hx, hall⟩ | ⟨hx, hx2⟩)
          · exact Or.inl ⟨List.mem_append_left _ hx,
              fun q hq => hall q (List.mem_cons_of_mem p hq)⟩
          · rcases List.mem_cons.mp hx with hx | hx
            · subst hx
              have h1 : ∀ q ∈ l, ap.min_len ≤ pathWeight g q := by
                intro q hq
                have h2 : (l.map (pathWeight g)).foldl min ap.min_len ≤ pathWeight g q :=
                  foldlMin_le_mem _ _ _ (List.mem_map.mpr ⟨q, hq, rfl⟩)
                omega
              exact Or.inl ⟨List.mem_append_right _ (List.mem_singleton.mpr rfl), h1⟩
            · exact Or.inr ⟨hx, hx2⟩
      · -- worse candidate: no-op
        rw [recordPath_gt g ap p hw]
        rw [ih ap hinv x]
        have hmm : min ap.min_len (pathWeight g p) = ap.min_len := by omega
        rw [hmm]
        constructor
        · rintro (⟨hx, hall⟩ | ⟨hx, hx2⟩)
          · refine Or.inl ⟨hx, ?_⟩
            intro q hq
            rcases List.mem_cons.mp hq with hq | hq
            · subst hq; omega
            · exact hall q hq
          · exact Or.inr ⟨List.mem_cons_of_mem p hx, hx2⟩
        · rintro (⟨hx, hall⟩ | ⟨hx, hx2⟩)
          · exact Or.inl ⟨hx, fun q hq => hall q (List.mem_cons_of_mem p hq)⟩
          · rcases List.mem_cons.mp hx with hx | hx
            · subst hx
              exfalso
              have h1 : (l.map (pathWeight g)).foldl min ap.min_len ≤ ap.min_len :=
                foldlMin_le_init _ _
              omega
            · exact Or.inr ⟨hx, hx2⟩

/-- reached_destination is recordPath when every allocation succeeds and
the stored running weight is the weight of the path buffer. -/
theorem reached_destination_eq_recordPath (g : t_graph) (info : t_path_info)
    (ap : t_path_list) (hw : info.weight = pathWeight g info.path) :
    reached_destination [] info ap = ([], recordPath g ap info.path) := by
  simp only [recordPath, reached_destination, add_path, hw]
  split <;> split <;> rfl

/-! ### Membership in the reference enumeration -/

theorem getLast?_mem_list {α : Type} : ∀ (l : List α) (a : α), l.getLast? = some a → a ∈ l := by
  intro l
  induction l with
  | nil => intro a h; simp at h
  | cons x l ih =>
      intro a h
      cases l with
      | nil => simp at h; simp [h]
      | cons y l2 =>
          rw [List.getLast?_cons_cons] at h
          exact List.mem_cons_of_mem x (ih a h)

theorem dfsFrom_mem (g : t_graph) (rec : Nat → List (List Nat)) (u : Nat)
    (visited : Nat → Bool) :
    ∀ (rem i : Nat) (p : List Nat), g.size ≤ i + rem →
      (p ∈ dfsFrom g rec u visited rem i ↔
        ∃ j, i ≤ j ∧ j < g.size ∧ g.matrix u j ≠ INIT ∧ visited j = false ∧
          p ∈ rec j) := by
  intro rem
  induction rem with
  | zero =>
      intro i p hsz
      constructor
      · intro h; simp [dfsFrom] at h
      · rintro ⟨j, h1, h2, _⟩; omega
  | succ rem ih =>
      intro i p hsz
      show p ∈ (if i < g.size then _ else []) ↔ _
      by_cases hi : i < g.size
      · rw [if_pos hi]
        rw [List.mem_append]
        constructor
        · rintro (h | h)
          · by_cases hg : g.matrix u i ≠ INIT ∧ visited i = false
            · rw [if_pos hg] at h
              exact ⟨i, le_rfl, hi, hg.1, hg.2, h⟩
            · rw [if_neg hg] at h
              simp at h
          · rcases (ih (i + 1) p (by omega)).mp h with ⟨j, hj1, hj2, hj3, hj4, hj5⟩
            exact ⟨j, by omega, hj2, hj3, hj4, hj5⟩
        · rintro ⟨j, hj1, hj2, hj3, hj4, hj5⟩
          by_cases hji : j = i
          · subst hji
            left
            rw [if_pos ⟨hj3, hj4⟩]
            exact hj5
          · right
            exact (ih (i + 1) p (by omega)).mpr ⟨j, by omega, hj2, hj3, hj4, hj5⟩
      · rw [if_neg hi]
        constructor
        · intro h; simp at h
        · rintro ⟨j, h1, h2, _⟩; omega

theorem dfsPaths_sound (g : t_graph) :
    ∀ (fuel : Nat) (u t : Nat) (visited : Nat → Bool) (p : List Nat),
      p ∈ dfsPaths g fuel u t visited → u < g.size → visited u = false →
      p.head? = some u ∧ p.getLast? = some t ∧
        List.Chain' (fun a b => g.matrix a b ≠ INIT) p ∧ p.Nodup ∧
        ∀ x ∈ p, x < g.size ∧ visited x = false := by
  intro fuel
  induction fuel with
  | zero => intro u t visited p h; simp [dfsPaths] at h
  | succ fuel ih =>
      intro u t visited p hmem hu hvu
      by_cases hut : u = t
      · subst hut
        have : p = [u] := by
          have h2 : dfsPaths g (fuel + 1) u u visited = [[u]] := by
            simp [dfsPaths]
          rw [h2] at hmem
          simpa using hmem
        subst this
        refine ⟨rfl, rfl, List.chain'_singleton u, List.nodup_singleton u, ?_⟩
        intro x hx
        rw [List.mem_singleton] at hx
        subst hx
        exact ⟨hu, hvu⟩
      · have h2 : dfsPaths g (fuel + 1) u t visited =
            (dfsFrom g (fun i => dfsPaths g fuel i t
              (fun j => if j = u then true else visited j)) u
              (fun j => if j = u then true else visited j) g.size 0).map
              (fun p => u :: p) := by
          simp [dfsPaths, hut]
        rw [h2] at hmem
        rcases List.mem_map.mp hmem with ⟨q, hq, rfl⟩
        rcases (dfsFrom_mem g _ u _ g.size 0 q (by omega)).mp hq with
          ⟨j, _, hj2, hj3, hj4, hj5⟩
        have hj4u : j ≠ u := by
          intro h; rw [h] at hj4; simp at hj4
        have hvj : visited j = false := by
          rw [if_neg hj4u] at hj4; exact hj4
        rcases ih j t _ q hj5 hj2 hj4 with ⟨hh, hl, hc, hn, hb⟩
        rcases q with _ | ⟨j2, q2⟩
        · simp at hh
        · have hj2eq : j2 = j := by simpa using hh
          subst hj2eq
          refine ⟨rfl, ?_, ?_, ?_, ?_⟩
          · rw [List.getLast?_cons_cons]
            exact hl
          · rw [List.chain'_cons]
            exact ⟨hj3, hc⟩
          · rw [List.nodup_cons]
            refine ⟨?_, hn⟩
            intro hmem2
            have := (hb u hmem2).2
            simp at this
          · intro x hx
            rcases List.mem_cons.mp hx with hx | hx
            · subst hx; exact ⟨hu, hvu⟩
            · have := hb x hx
              refine ⟨this.1, ?_⟩
              have h3 := this.2
              by_cases hxu : x = u
              · rw [if_pos hxu] at h3; simp at h3
              · rw [if_neg hxu] at h3; exact h3

theorem dfsPaths_complete (g : t_graph) :
    ∀ (fuel : Nat) (u t : Nat) (visited : Nat → Bool) (p : List Nat),
      p.head? = some u → p.getLast? = some t →
      List.Chain' (fun a b => g.matrix a b ≠ INIT) p → p.Nodup →
      (∀ x ∈ p, x < g.size ∧ visited x = false) → p.length ≤ fuel →
      p ∈ dfsPaths g fuel u t visited := by
  intro fuel
  induction fuel with
  | zero =>
      intro u t visited p hh _ _ _ _ hlen
      have : p = [] := List.length_eq_zero.mp (by omega)
      subst this
      simp at hh
  | succ fuel ih =>
      intro u t visited p hh hl hc hn hb hlen
      rcases p with _ | ⟨u0, p1⟩
      · simp at hh
      · have hu0 : u = u0 := by
          simp at hh
          omega
        subst hu0
        by_cases hut : u = t
        · subst hut
          have hp1 : p1 = [] := by
            rcases p1 with _ | ⟨j, p2⟩
            · rfl
            · exfalso
              rw [List.getLast?_cons_cons] at hl
              have htmem : u ∈ j :: p2 := getLast?_mem_list _ _ hl
              rw [List.nodup_cons] at hn
              exact hn.1 htmem
          subst hp1
          have h2 : dfsPaths g (fuel + 1) u u visited = [[u]] := by
            simp [dfsPaths]
          rw [h2]
          simp
        · have h2 : dfsPaths g (fuel + 1) u t visited =
              (dfsFrom g (fun i => dfsPaths g fuel i t
                (fun j => if j = u then true else visited j)) u
                (fun j => if j = u then true else visited j) g.size 0).map
                (fun p => u :: p) := by
            simp [dfsPaths, hut]
          rw [h2]
          rcases p1 with _ | ⟨j, p2⟩
          · exfalso
            simp at hl
            exact hut hl
          · rw [List.mem_map]
            refine ⟨j :: p2, ?_, rfl⟩
            rw [List.nodup_cons] at hn
            have hju : j ≠ u := by
              intro h; subst h; exact hn.1 (by simp)
            rw [List.chain'_cons] at hc
            have hmemrec : (j :: p2) ∈ dfsPaths g fuel j t
                (fun k => if k = u then true else visited k) := by
              refine ih j t _ (j :: p2) rfl ?_ hc.2 hn.2 ?_ ?_
              · rw [List.getLast?_cons_cons] at hl
                exact hl
              · intro x hx
                have hxu : x ≠ u := by
                  intro h; subst h; exact hn.1 hx
                have := hb x (List.mem_cons_of_mem u hx)
                rw [if_neg hxu]
                exact this
              · simp at hlen ⊢
                omega
            refine (dfsFrom_mem g _ u _ g.size 0 (j :: p2) (by omega)).mpr ?_
            refine ⟨j, by omega, (hb j (by simp)).1, hc.1, ?_, hmemrec⟩
            rw [if_neg hju]
            exact (hb j (by simp)).2

/-! ### Unfolding equations and search invariants -/

theorem explore_neighbors_zero (g : t_graph)
    (rec : Nat → List Bool → t_path_info → t_path_list →
      Option (List Bool × t_path_info × t_path_list))
    (frm i : Nat) (alloc : List Bool) (info : t_path_info) (ap : t_path_list) :
    explore_neighbors g rec frm 0 i alloc info ap = some (alloc, info, ap) := rfl

theorem explore_neighbors_succ (g : t_graph)
    (rec : Nat → List Bool → t_path_info → t_path_list →
      Option (List Bool × t_path_info × t_path_list))
    (frm rem i : Nat) (alloc : List Bool) (info : t_path_info) (ap : t_path_list) :
    explore_neighbors g rec frm (rem + 1) i alloc info ap =
      if i < g.size then
        if g.matrix frm i ≠ INIT ∧ info.visited i = false ∧
            info.weight + g.matrix frm i ≤ ap.min_len then
          match rec i alloc { info with weight := info.weight + g.matrix frm i } ap with
          | none => none
          | some (alloc2, info2, ap2) =>
              explore_neighbors g rec frm rem (i + 1) alloc2
                { info2 with weight := info2.weight - g.matrix frm i } ap2
        else
          explore_neighbors g rec frm rem (i + 1) alloc info ap
      else
        some (alloc, info, ap) := rfl

theorem find_all_from_to_succ (g : t_graph) (fuel frm tgt : Nat)
    (alloc : List Bool) (info : t_path_info) (ap : t_path_list) :
    find_all_from_to g (fuel + 1) frm tgt alloc info ap =
      match (if frm = tgt then
          let r := reached_destination alloc
            { info with visited := fun j => if j = frm then true else info.visited j,
                        path := info.path ++ [frm] } ap
          some (r.1,
            { info with visited := fun j => if j = frm then true else info.visited j,
                        path := info.path ++ [frm] }, r.2)
        else
          explore_neighbors g
            (fun i al inf p => find_all_from_to g fuel i tgt al inf p) frm g.size 0 alloc
            { info with visited := fun j => if j = frm then true else info.visited j,
                        path := info.path ++ [frm] } ap) with
      | none => none
      | some (alloc2, info2, ap2) =>
          some (alloc2,
            { info2 with path := info2.path.dropLast,
                         visited := fun j => if j = frm then false else info2.visited j },
            ap2) := rfl

theorem dfsFrom_zero (g : t_graph) (rec : Nat → List (List Nat)) (u : Nat)
    (visited : Nat → Bool) (i : Nat) : dfsFrom g rec u visited 0 i = [] := rfl

theorem dfsFrom_succ (g : t_graph) (rec : Nat → List (List Nat)) (u : Nat)
    (visited : Nat → Bool) (rem i : Nat) :
    dfsFrom g rec u visited (rem + 1) i =
      if i < g.size then
        (if g.matrix u i ≠ INIT ∧ visited i = false then rec i else []) ++
          dfsFrom g rec u visited rem (i + 1)
      else [] := rfl

theorem dfsPaths_succ (g : t_graph) (fuel u t : Nat) (visited : Nat → Bool) :
    dfsPaths g (fuel + 1) u t visited =
      if u = t then [[t]]
      else
        (dfsFrom g (fun i => dfsPaths g fuel i t
            (fun j => if j = u then true else visited j)) u
          (fun j => if j = u then true else visited j) g.size 0).map
          (fun p => u :: p) := rfl

theorem nodup_length_le (g : t_graph) (l : List Nat) (hn : l.Nodup)
    (hb : ∀ x ∈ l, x < g.size) : l.length ≤ g.size := by
  calc l.length = l.toFinset.card := (List.toFinset_card_of_nodup hn).symm
    _ ≤ (Finset.range g.size).card := by
        refine Finset.card_le_card ?_
        intro x hx
        rw [List.mem_toFinset] at hx
        rw [Finset.mem_range]
        exact hb x hx
    _ = g.size := Finset.card_range _

/-- Precondition of a find_all_from_to call entering vertex frm: the
buffer extended with frm is a simple in-range edge path, the running
weight is its weight (frm's incoming edge already pushed), and visited
marks exactly the buffer contents (frm not yet marked). -/
def findPRE (g : t_graph) (frm : Nat) (info : t_path_info) : Prop :=
  (info.path ++ [frm]).Nodup ∧ (∀ x ∈ info.path ++ [frm], x < g.size) ∧
    List.Chain' (fun a b => g.matrix a b ≠ INIT) (info.path ++ [frm]) ∧
    info.weight = pathWeight g (info.path ++ [frm]) ∧
    (∀ j, info.visited j = true ↔ j ∈ info.path)

/-- Precondition of an explore_neighbors call from vertex u: the buffer
is a simple in-range edge path ending at u, the running weight is its
weight, and visited marks exactly the buffer contents (u included). -/
def explorePRE (g : t_graph) (u : Nat) (info : t_path_info) : Prop :=
  info.path.getLast? = some u ∧ info.path.Nodup ∧
    (∀ x ∈ info.path, x < g.size) ∧
    List.Chain' (fun a b => g.matrix a b ≠ INIT) info.path ∧
    info.weight = pathWeight g info.path ∧
    (∀ j, info.visited j = true ↔ j ∈ info.path)

/-- Central lemma: with every allocation succeeding, a find_all_from_to
call satisfying its invariant restores the search state exactly and
transforms the result list by folding the pure recording step over the
reference enumeration of all candidate completions; likewise for
explore_neighbors from a loop index on.  The weight-bound pruning is
invisible in the result because pruned candidates are exactly those the
recording step ignores. -/
theorem search_spec (g : t_graph)
    (hnn : ∀ i, i < g.size → ∀ j, j < g.size → g.matrix i j ≠ INIT → 0 ≤ g.matrix i j) :
    ∀ fuel : Nat,
      (∀ frm tgt (info : t_path_info) (ap : t_path_list), findPRE g frm info →
        g.size + 1 ≤ info.path.length + fuel →
        find_all_from_to g fuel frm tgt [] info ap =
          some ([], info,
            ((dfsPaths g fuel frm tgt info.visited).map
              (fun p => info.path ++ p)).foldl (recordPath g) ap)) ∧
      (∀ u tgt rem i (info : t_path_info) (ap : t_path_list), explorePRE g u info →
        g.size + 1 ≤ info.path.length + fuel →
        explore_neighbors g
            (fun k al inf p => find_all_from_to g fuel k tgt al inf p)
            u rem i [] info ap =
          some ([], info,
            ((dfsFrom g (fun k => dfsPaths g fuel k tgt info.visited)
                u info.visited rem i).map
              (fun p => info.path ++ p)).foldl (recordPath g) ap)) := by
  intro fuel
  induction fuel with
  | zero =>
      constructor
      · intro frm tgt info ap hpre hfuel
        exfalso
        have h1 : (info.path ++ [frm]).length ≤ g.size :=
          nodup_length_le g _ hpre.1 hpre.2.1
        simp at h1
        omega
      · intro u tgt rem i info ap hpre hfuel
        exfalso
        have hu : u ∈ info.path := getLast?_mem_list _ _ hpre.1
        have h1 : info.path.length ≤ g.size :=
          nodup_length_le g _ hpre.2.1 hpre.2.2.1
        have h2 : 1 ≤ info.path.length := by
          cases hp : info.path with
          | nil => rw [hp] at hu; simp at hu
          | cons a l => simp [hp]
        omega
  | succ fuel ihR =>
      have P1 : ∀ frm tgt (info : t_path_info) (ap : t_path_list), findPRE g frm info →
          g.size + 1 ≤ info.path.length + (fuel + 1) →
          find_all_from_to g (fuel + 1) frm tgt [] info ap =
            some ([], info,
              ((dfsPaths g (fuel + 1) frm tgt info.visited).map
                (fun p => info.path ++ p)).foldl (recordPath g) ap) := by
        intro frm tgt info ap hpre hfuel
        obtain ⟨vis, pth, wt⟩ := info
        obtain ⟨hnd, hbd, hch, hwt, hvis⟩ := hpre
        simp only at hnd hbd hch hwt hvis hfuel
        have hfrmnotin : frm ∉ pth := by
          rw [List.nodup_append] at hnd
          intro hmem
          exact hnd.2.2 hmem (List.mem_singleton.mpr rfl)
        have hvisfrm : vis frm = false := by
          by_cases h : vis frm = true
          · exact absurd ((hvis frm).mp h) hfrmnotin
          · simpa using h
        have hrestore : (fun j => if j = frm then false
            else if j = frm then true else vis j) = vis := by
          funext j
          by_cases hj : j = frm
          · subst hj
            simp [hvisfrm]
          · simp [hj]
        rw [find_all_from_to_succ]
        by_cases htt : frm = tgt
        · subst htt
          rw [if_pos rfl]
          rw [reached_destination_eq_recordPath g _ ap (by simpa using hwt)]
          dsimp only
          rw [dfsPaths_succ, if_pos rfl]
          simp only [List.map_cons, List.map_nil, List.foldl_cons, List.foldl_nil,
            List.dropLast_concat, hrestore]
        · rw [if_neg htt]
          have hexp := (ihR.2) frm tgt g.size 0
            ⟨fun j => if j = frm then true else vis j, pth ++ [frm], wt⟩ ap
          have hpre2 : explorePRE g frm
              ⟨fun j => if j = frm then true else vis j, pth ++ [frm], wt⟩ := by
            refine ⟨List.getLast?_concat _, hnd, hbd, hch, by simpa using hwt, ?_⟩
            intro j
            simp only
            by_cases hj : j = frm
            · subst hj
              simp
            · simp [hj, hvis j]
          have hfuel2 : g.size + 1 ≤ (pth ++ [frm]).length + fuel := by
            have hl : (pth ++ [frm]).length = pth.length + 1 := by simp
            omega
          have hexp2 := hexp hpre2 (by simpa using hfuel2)
          rw [hexp2]
          dsimp only
          rw [dfsPaths_succ, if_neg htt]
          rw [List.map_map]
          have hmapeq : ((fun p => pth ++ p) ∘ fun p => frm :: p) =
              (fun p => (pth ++ [frm]) ++ p) := by
            funext p
            simp
          rw [hmapeq]
          simp only [List.dropLast_concat, hrestore]
      refine ⟨P1, ?_⟩
      intro u tgt rem
      induction rem with
      | zero =>
          intro i info ap hpre hfuel
          rw [explore_neighbors_zero, dfsFrom_zero]
          rfl
      | succ rem ihrem =>
          intro i info ap hpre hfuel
          obtain ⟨hlast, hnd, hbd, hch, hwt, hvis⟩ := hpre
          rw [explore_neighbors_succ, dfsFrom_succ]
          by_cases hi : i < g.size
          · rw [if_pos hi, if_pos hi]
            by_cases hg2 : g.matrix u i ≠ INIT ∧ info.visited i = false
            · rw [if_pos hg2]
              have hinotin : i ∉ info.path := by
                intro hmem
                have := (hvis i).mpr hmem
                rw [hg2.2] at this
                simp at this
              by_cases hbound : info.weight + g.matrix u i ≤ ap.min_len
              · rw [if_pos ⟨hg2.1, hg2.2, hbound⟩]
                have hfind := P1 i tgt
                  { info with weight := info.weight + g.matrix u i } ap
                have hpre3 : findPRE g i
                    { info with weight := info.weight + g.matrix u i } := by
                  refine ⟨?_, ?_, ?_, ?_, ?_⟩
                  · simp only
                    rw [List.nodup_append]
                    refine ⟨hnd, List.nodup_singleton i, ?_⟩
                    intro a ha hb
                    rw [List.mem_singleton] at hb
                    subst hb
                    exact hinotin ha
                  · simp only
                    intro x hx
                    rcases List.mem_append.mp hx with hx | hx
                    · exact hbd x hx
                    · rw [List.mem_singleton] at hx; subst hx; exact hi
                  · simp only
                    rw [List.chain'_append]
                    refine ⟨hch, List.chain'_singleton i, ?_⟩
                    intro x hx y hy
                    rw [hlast] at hx
                    simp at hx hy
                    subst hx
                    subst hy
                    exact hg2.1
                  · simp only
                    rw [pathWeight_push g info.path u i hlast, hwt]
                  · simp only
                    exact hvis
                have hfuel3 : g.size + 1 ≤
                    ({ info with weight := info.weight + g.matrix u i } :
                      t_path_info).path.length + (fuel + 1) := by
                  simpa using hfuel
                have hfind2 := hfind hpre3 hfuel3
                rw [hfind2]
                dsimp only
                rw [add_sub_cancel_right]
                have hS : (⟨info.visited, info.path, info.weight⟩ : t_path_info) = info := rfl
                rw [hS]
                rw [ihrem (i + 1) info _ ⟨hlast, hnd, hbd, hch, hwt, hvis⟩ hfuel]
                rw [List.map_append, List.foldl_append]
              · rw [if_neg (by
                  intro hg3
                  exact hbound hg3.2.2)]
                rw [ihrem (i + 1) info ap ⟨hlast, hnd, hbd, hch, hwt, hvis⟩ hfuel]
                rw [List.map_append, List.foldl_append]
                have hnoop : ((dfsPaths g (fuel + 1) i tgt info.visited).map
                    (fun p => info.path ++ p)).foldl (recordPath g) ap = ap := by
                  refine foldl_recordPath_noop g _ ap ?_
                  intro p hp
                  rcases List.mem_map.mp hp with ⟨q, hq, rfl⟩
                  have hsound := dfsPaths_sound g (fuel + 1) i tgt info.visited q hq hi hg2.2
                  obtain ⟨hqh, hql, hqc, hqn, hqb⟩ := hsound
                  rcases q with _ | ⟨i0, q1⟩
                  · simp at hqh
                  · have hi0 : i0 = i := by simpa using hqh
                    subst hi0
                    rw [pathWeight_append_cons g info.path i0 q1]
                    rw [pathWeight_push g info.path u i0 hlast, ← hwt]
                    have hq0 : 0 ≤ pathWeight g (i0 :: q1) :=
                      pathWeight_nonneg g hnn _ hqc (fun x hx => (hqb x hx).1)
                    omega
                rw [hnoop]
            · rw [if_neg hg2]
              rw [if_neg (by
                intro hg3
                exact hg2 ⟨hg3.1, hg3.2.1⟩)]
              rw [ihrem (i + 1) info ap ⟨hlast, hnd, hbd, hch, hwt, hvis⟩ hfuel]
              simp
          · rw [if_neg hi, if_neg hi]
            rfl

/-- A search on freshly created state (as performed by find_all_from)
computes the fold of the pure recording step over the reference
enumeration of all simple paths from s to t. -/
theorem find_all_from_to_fresh (g : t_graph) (s t : Nat) (n : Nat) (hs : s < g.size)
    (hnn : ∀ i, i < g.size → ∀ j, j < g.size → g.matrix i j ≠ INIT → 0 ≤ g.matrix i j) :
    find_all_from_to g (g.size + 1) s t [] (create_path_info n) create_paths =
      some ([], create_path_info n,
        (dfsPaths g (g.size + 1) s t (fun _ => false)).foldl (recordPath g)
          create_paths) := by
  have hpre : findPRE g s (create_path_info n) := by
    refine ⟨?_, ?_, ?_, ?_, ?_⟩
    · simp [create_path_info]
    · intro x hx
      simp [create_path_info] at hx
      subst hx
      exact hs
    · simp [create_path_info]
    · simp [create_path_info, pathWeight_single]
    · intro j
      simp [create_path_info]
  have h := (search_spec g hnn (g.size + 1)).1 s t (create_path_info n)
    create_paths hpre (by simp [create_path_info])
  rw [h]
  have hmap : (dfsPaths g (g.size + 1) s t
      ((create_path_info n).visited)).map
        (fun p => (create_path_info n).path ++ p) =
      dfsPaths g (g.size + 1) s t (fun _ => false) := by
    show (dfsPaths g (g.size + 1) s t (fun _ => false)).map (fun p => [] ++ p) =
      dfsPaths g (g.size + 1) s t (fun _ => false)
    simp
  rw [hmap]

/-- The reference enumeration on fresh visited state is exactly the set
of simple paths from s to t. -/
theorem dfsPaths_fresh_iff (g : t_graph) (s t : Nat) (hs : s < g.size) (p : List Nat) :
    p ∈ dfsPaths g (g.size + 1) s t (fun _ => false) ↔ SimplePathFromTo g s t p := by
  constructor
  · intro h
    have := dfsPaths_sound g (g.size + 1) s t (fun _ => false) p h hs rfl
    exact ⟨this.1, this.2.1, this.2.2.1, this.2.2.2.1,
      fun x hx => (this.2.2.2.2 x hx).1⟩
  · rintro ⟨hh, hl, hc, hn, hb⟩
    refine dfsPaths_complete g (g.size + 1) s t (fun _ => false) p hh hl hc hn
      (fun x hx => ⟨hb x hx, rfl⟩) ?_
    have := nodup_length_le g p hn hb
    omega

/-- Claim C1: on a graph with non-negative integer edge weights (INIT as
the no-edge sentinel, all weights bounded so that no path weight reaches
INT_MAX) and valid vertices s and t, find_all_from_to on freshly created
state leaves the result list holding exactly the simple paths from s to
t of globally minimal total weight (each such path present, nothing of
any other weight present), with min_len that minimum; if no simple path
exists the list is empty and min_len remains INT_MAX. -/
theorem find_all_from_to_minimal_paths (g : t_graph) (s t : Nat) (W : Int)
    (hs : s < g.size) (ht : t < g.size)
    (hnn : ∀ i, i < g.size → ∀ j, j < g.size → g.matrix i j ≠ INIT → 0 ≤ g.matrix i j)
    (hub : ∀ i, i < g.size → ∀ j, j < g.size → g.matrix i j ≠ INIT → g.matrix i j ≤ W)
    (hW0 : 0 ≤ W) (hW : (g.size : Int) * W < INT_MAX) :
    ∃ ap : t_path_list,
      find_all_from_to g (g.size + 1) s t [] (create_path_info g.size) create_paths
        = some ([], create_path_info g.size, ap) ∧
      (∀ p, p ∈ ap.paths ↔
        (SimplePathFromTo g s t p ∧
          ∀ r, SimplePathFromTo g s t r → pathWeight g p ≤ pathWeight g r)) ∧
      ((∃ p, SimplePathFromTo g s t p) →
        ∃ p, p ∈ ap.paths ∧ ap.min_len = pathWeight g p) ∧
      ((¬ ∃ p, SimplePathFromTo g s t p) → ap.paths = [] ∧ ap.min_len = INT_MAX) := by
  classical
  set L := dfsPaths g (g.size + 1) s t (fun _ => false) with hL
  have hWlt : ∀ p ∈ L, pathWeight g p < INT_MAX := by
    intro p hp
    rcases (dfsPaths_fresh_iff g s t hs p).mp hp with ⟨hh, hl, hc, hn, hb⟩
    have h1 : pathWeight g p ≤ (p.length : Int) * W := pathWeight_ub g W hub hW0 p hc hb
    have h2 : p.length ≤ g.size := nodup_length_le g p hn hb
    have h3 : (p.length : Int) * W ≤ (g.size : Int) * W := by
      have : (p.length : Int) ≤ (g.size : Int) := by exact_mod_cast h2
      exact mul_le_mul_of_nonneg_right this hW0
    omega
  set M := (L.map (pathWeight g)).foldl min INT_MAX with hM
  refine ⟨L.foldl (recordPath g) create_paths,
    find_all_from_to_fresh g s t g.size hs hnn, ?_, ?_, ?_⟩
  · intro p
    have hmem := foldl_recordPath_mem g L create_paths (by intro q hq; simp [create_paths] at hq) p
    rw [hmem]
    simp only [show create_paths.min_len = INT_MAX from rfl]
    have hcp : p ∈ create_paths.paths ↔ False := by simp [create_paths]
    constructor
    · rintro (⟨hp, _⟩ | ⟨hp, hw⟩)
      · rw [hcp] at hp; exact hp.elim
      · refine ⟨(dfsPaths_fresh_iff g s t hs p).mp hp, ?_⟩
        intro r hr
        have hrL : r ∈ L := (dfsPaths_fresh_iff g s t hs r).mpr hr
        have : M ≤ pathWeight g r :=
          foldlMin_le_mem _ _ _ (List.mem_map.mpr ⟨r, hrL, rfl⟩)
        omega
    · rintro ⟨hp, hmin⟩
      have hpL : p ∈ L := (dfsPaths_fresh_iff g s t hs p).mpr hp
      refine Or.inr ⟨hpL, ?_⟩
      have h1 : M ≤ pathWeight g p :=
        foldlMin_le_mem _ _ _ (List.mem_map.mpr ⟨p, hpL, rfl⟩)
      have h2 : pathWeight g p ≤ M := by
        refine foldlMin_lb _ _ _ ?_ ?_
        · have := hWlt p hpL
          omega
        · intro b hb
          rcases List.mem_map.mp hb with ⟨q, hq, rfl⟩
          exact hmin q ((dfsPaths_fresh_iff g s t hs q).mp hq)
      omega
  · rintro ⟨p, hp⟩
    have hpL : p ∈ L := (dfsPaths_fresh_iff g s t hs p).mpr hp
    have hMmem : M = INT_MAX ∨ M ∈ L.map (pathWeight g) := foldlMin_mem_or _ _
    have hMlt : M < INT_MAX := by
      have h1 : M ≤ pathWeight g p :=
        foldlMin_le_mem _ _ _ (List.mem_map.mpr ⟨p, hpL, rfl⟩)
      have h2 := hWlt p hpL
      omega
    rcases hMmem with h | h
    · omega
    · rcases List.mem_map.mp h with ⟨q, hq, hqw⟩
      refine ⟨q, ?_, ?_⟩
      · rw [foldl_recordPath_mem g L create_paths
          (by intro r hr; simp [create_paths] at hr) q]
        simp only [show create_paths.min_len = INT_MAX from rfl]
        exact Or.inr ⟨hq, by rw [hqw]⟩
      · rw [foldl_recordPath_min]
        show (L.map (pathWeight g)).foldl min create_paths.min_len = pathWeight g q
        have : create_paths.min_len = INT_MAX := rfl
        rw [this, ← hM, hqw]
  · intro hno
    have hLnil : L = [] := by
      cases hLc : L with
      | nil => rfl
      | cons q L2 =>
          exfalso
          refine hno ⟨q, (dfsPaths_fresh_iff g s t hs q).mp ?_⟩
          rw [← hL, hLc]
          simp
    rw [hLnil]
    constructor <;> rfl

/-! ### Concrete graphs used by witnesses and counterexamples -/

/-- Two vertices, a single edge 0 → 1 of weight 1. -/
def exG1 : t_graph := ⟨2, fun i j => if i = 0 ∧ j = 1 then 1 else INIT⟩

/-- Four vertices, two disjoint tied routes 0 → 1 → 3 and 0 → 2 → 3, every
edge weight 1 (the tie-enumeration graph of spec §8). -/
def exG3 : t_graph :=
  ⟨4, fun i j =>
    if i = 0 ∧ j = 1 then 1 else if i = 1 ∧ j = 3 then 1
    else if i = 0 ∧ j = 2 then 1 else if i = 2 ∧ j = 3 then 1 else INIT⟩

/-- Claim C1 witness: the theorem applied to exG1 (single edge 0 → 1 of
weight 1), every hypothesis discharged by evaluation. -/
theorem find_all_from_to_minimal_paths_witness :
    ((0 < exG1.size) ∧ (1 < exG1.size) ∧
      (∀ i, i < exG1.size → ∀ j, j < exG1.size → exG1.matrix i j ≠ INIT →
        0 ≤ exG1.matrix i j) ∧
      (∀ i, i < exG1.size → ∀ j, j < exG1.size → exG1.matrix i j ≠ INIT →
        exG1.matrix i j ≤ 1) ∧
      (0 : Int) ≤ 1 ∧ (exG1.size : Int) * 1 < INT_MAX) ∧
    (∃ ap : t_path_list,
      find_all_from_to exG1 (exG1.size + 1) 0 1 [] (create_path_info exG1.size)
          create_paths = some ([], create_path_info exG1.size, ap) ∧
      (∀ p, p ∈ ap.paths ↔
        (SimplePathFromTo exG1 0 1 p ∧
          ∀ r, SimplePathFromTo exG1 0 1 r → pathWeight exG1 p ≤ pathWeight exG1 r)) ∧
      ((∃ p, SimplePathFromTo exG1 0 1 p) →
        ∃ p, p ∈ ap.paths ∧ ap.min_len = pathWeight exG1 p) ∧
      ((¬ ∃ p, SimplePathFromTo exG1 0 1 p) → ap.paths = [] ∧ ap.min_len = INT_MAX)) :=
  ⟨⟨by decide, by decide, by decide, by decide, by decide, by decide⟩,
    find_all_from_to_minimal_paths exG1 0 1 1 (by decide) (by decide) (by decide)
      (by decide) (by decide) (by decide)⟩

/-- Claim C2: reached_destination (with the copy succeeding) acts by
exactly three cases on the candidate weight w against min_len: w <
min_len discards all stored paths and restarts the list with the sole
candidate and min_len = w; w = min_len appends the candidate; w >
min_len changes nothing. -/
theorem reached_destination_cases (info : t_path_info) (ap : t_path_list) :
    (info.weight < ap.min_len →
      reached_destination [] info ap =
        ([], { paths := [info.path], min_len := info.weight })) ∧
    (info.weight = ap.min_len →
      reached_destination [] info ap =
        ([], { paths := ap.paths ++ [info.path], min_len := ap.min_len })) ∧
    (ap.min_len < info.weight →
      reached_destination [] info ap = ([], ap)) := by
  refine ⟨?_, ?_, ?_⟩
  · intro h
    simp [reached_destination, add_path, h, List.take_length]
  · intro h
    have h2 : ¬ info.weight < ap.min_len := by omega
    simp [reached_destination, add_path, h, h2, List.take_length]
  · intro h
    have h2 : ¬ info.weight < ap.min_len := by omega
    have h3 : ¬ info.weight = ap.min_len := by omega
    simp [reached_destination, add_path, h2, h3]

/-- Claim C2 witness: the three cases evaluated on concrete states. -/
theorem reached_destination_cases_witness :
    reached_destination [] ⟨fun _ => false, [0], 3⟩ ⟨[[5]], 5⟩ =
      ([], { paths := [[0]], min_len := 3 }) ∧
    reached_destination [] ⟨fun _ => false, [0], 5⟩ ⟨[[5]], 5⟩ =
      ([], { paths := [[5], [0]], min_len := 5 }) ∧
    reached_destination [] ⟨fun _ => false, [0], 7⟩ ⟨[[5]], 5⟩ = ([], ⟨[[5]], 5⟩) :=
  ⟨(reached_destination_cases ⟨fun _ => false, [0], 3⟩ ⟨[[5]], 5⟩).1 (by decide),
   (reached_destination_cases ⟨fun _ => false, [0], 5⟩ ⟨[[5]], 5⟩).2.1 (by decide),
   (reached_destination_cases ⟨fun _ => false, [0], 7⟩ ⟨[[5]], 5⟩).2.2 (by decide)⟩

/-- Claim C4: within the loop (index i in range), the search recurses
into i exactly under the guard: edge entry differs from INIT, i is
unvisited, and runningWeight + edgeWeight ≤ min_len (with ≤); the edge
weight is added before the recursive call and subtracted back on the
continuation; and when min_len = INT_MAX the bound conjunct holds
whenever the int sum does not exceed INT_MAX, so only the first two
conjuncts decide. -/
theorem explore_neighbors_guard (g : t_graph)
    (rec : Nat → List Bool → t_path_info → t_path_list →
      Option (List Bool × t_path_info × t_path_list))
    (frm rem i : Nat) (alloc : List Bool) (info : t_path_info) (ap : t_path_list)
    (hi : i < g.size) :
    (explore_neighbors g rec frm (rem + 1) i alloc info ap =
      if g.matrix frm i ≠ INIT ∧ info.visited i = false ∧
          info.weight + g.matrix frm i ≤ ap.min_len then
        match rec i alloc { info with weight := info.weight + g.matrix frm i } ap with
        | none => none
        | some (alloc2, info2, ap2) =>
            explore_neighbors g rec frm rem (i + 1) alloc2
              { info2 with weight := info2.weight - g.matrix frm i } ap2
      else
        explore_neighbors g rec frm rem (i + 1) alloc info ap) ∧
    (ap.min_len = INT_MAX → info.weight + g.matrix frm i ≤ INT_MAX →
      g.matrix frm i ≠ INIT → info.visited i = false →
      (g.matrix frm i ≠ INIT ∧ info.visited i = false ∧
        info.weight + g.matrix frm i ≤ ap.min_len)) := by
  constructor
  · rw [explore_neighbors_succ, if_pos hi]
  · intro h1 h2 h3 h4
    exact ⟨h3, h4, by rw [h1]; exact h2⟩

/-- Claim C4 witness: the guard equivalence applied to exG1 at index 1
from vertex 0 on fresh state with min_len = INT_MAX. -/
theorem explore_neighbors_guard_witness :
    (1 < exG1.size) ∧
    (exG1.matrix 0 1 ≠ INIT ∧ (create_path_info 2).visited 1 = false ∧
      (create_path_info 2).weight + exG1.matrix 0 1 ≤ create_paths.min_len) :=
  ⟨by decide,
    (explore_neighbors_guard exG1 (fun _ _ _ _ => none) 0 1 1 []
        (create_path_info 2) create_paths (by decide)).2
      rfl (by decide) (by decide) (by decide)⟩

/-- Claim C7 counterexample: with the tie graph exG3 and the first
mx_realloc returning NULL, the discovered minimal path [0, 1, 3] is
silently dropped (min_len is already updated to 2, the stored list
cleared), no error reaches the caller, and the search is not aborted: it
keeps exploring and records the later tie [0, 2, 3], returning a normal
result.  This contradicts the claim that the failure is surfaced
immediately to the caller and the in-progress search call aborted. -/
theorem allocation_failure_not_aborted :
    Option.map (fun r => r.2.2)
        (find_all_from_to exG3 5 0 3 [false] (create_path_info 4) create_paths) =
      some { paths := [[0, 2, 3]], min_len := 2 } ∧
    Option.map (fun r => r.1)
        (find_all_from_to exG3 5 0 3 [false] (create_path_info 4) create_paths) =
      some [] := by
  constructor
  · decide
  · decide

/-- Claim C7 amended: when mx_realloc fails, add_path returns with the list
untouched and the search continues; no error value propagates (the
function results are unchanged-state, not failures).  If the failing
candidate was strictly better, min_len has already been lowered and the
previous paths freed, so the stored collection ends empty at the new
min_len; on a tie the collection is simply unchanged. -/
theorem allocation_failure_behavior (rest : List Bool) (info : t_path_info)
    (ap : t_path_list) :
    (info.weight < ap.min_len →
      reached_destination (false :: rest) info ap =
        (rest, { paths := [], min_len := info.weight })) ∧
    (info.weight = ap.min_len →
      reached_destination (false :: rest) info ap = (rest, ap)) ∧
    (ap.min_len < info.weight →
      reached_destination (false :: rest) info ap = (false :: rest, ap)) := by
  refine ⟨?_, ?_, ?_⟩
  · intro h
    simp [reached_destination, add_path, h]
  · intro h
    have h2 : ¬ info.weight < ap.min_len := by omega
    simp [reached_destination, add_path, h, h2]
  · intro h
    have h2 : ¬ info.weight < ap.min_len := by omega
    have h3 : ¬ info.weight = ap.min_len := by omega
    simp [reached_destination, add_path, h2, h3]

/-- Claim C7 amended witness: the three allocation-failure cases on
concrete states. -/
theorem allocation_failure_behavior_witness :
    reached_destination [false] ⟨fun _ => false, [1], 2⟩ ⟨[[6]], 4⟩ =
      ([], { paths := [], min_len := 2 }) ∧
    reached_destination [false] ⟨fun _ => false, [1], 4⟩ ⟨[[6]], 4⟩ = ([], ⟨[[6]], 4⟩) ∧
    reached_destination [false] ⟨fun _ => false, [1], 6⟩ ⟨[[6]], 4⟩ =
      ([false], ⟨[[6]], 4⟩) :=
  ⟨(allocation_failure_behavior [] ⟨fun _ => false, [1], 2⟩ ⟨[[6]], 4⟩).1 (by decide),
   (allocation_failure_behavior [] ⟨fun _ => false, [1], 4⟩ ⟨[[6]], 4⟩).2.1 (by decide),
   (allocation_failure_behavior [] ⟨fun _ => false, [1], 6⟩ ⟨[[6]], 4⟩).2.2 (by decide)⟩

/-- Claim C10: when mx_realloc returns NULL, add_path returns with the
result list exactly as it was (same stored paths, same count, same
min_len, nothing appended), and the enclosing search continues to
completion rather than aborting: on exG1 with the single allocation
failing, the search still returns a normal result (its recording of the
only path was dropped, min_len already lowered to 1). -/
theorem add_path_alloc_failure (rest : List Bool) (ap : t_path_list)
    (cur : List Nat) (n : Nat) :
    add_path (false :: rest) ap cur n = (rest, ap) ∧
    Option.map (fun r => r.2.2)
        (find_all_from_to exG1 3 0 1 [false] (create_path_info 2) create_paths) =
      some { paths := [], min_len := 1 } :=
  ⟨rfl, by decide⟩

/-- Claim C8: searching with start = target = v on fresh state returns
exactly one stored path, [v] alone, with min_len = 0 — for every graph,
in particular also when a self-loop edge sits on v (the neighbor loop is
never entered when the target is already reached). -/
theorem search_self_trivial (g : t_graph) (v : Nat) :
    find_all_from_to g (g.size + 1) v v [] (create_path_info g.size) create_paths =
      some ([], create_path_info g.size, { paths := [[v]], min_len := 0 }) := by
  rw [find_all_from_to_succ, if_pos rfl]
  have h0 : (0 : Int) < INT_MAX := by norm_num [INT_MAX]
  have h1 : reached_destination []
      { (create_path_info g.size) with
          visited := fun j => if j = v then true else (create_path_info g.size).visited j,
          path := (create_path_info g.size).path ++ [v] } create_paths =
      ([], { paths := [[v]], min_len := 0 }) := by
    simp [reached_destination, add_path, create_path_info, create_paths, h0]
  rw [h1]
  dsimp only
  have hv : (fun j => if j = v then false else
      if j = v then true else (create_path_info g.size).visited j) =
      (create_path_info g.size).visited := by
    funext j
    by_cases hj : j = v <;> simp [hj, create_path_info]
  rw [List.dropLast_concat, hv]

/-- Claim C3: given the search-state invariant (visited marks exactly the
path-buffer contents and the running weight is the exact sum of the
buffer's consecutive edge weights), every find_all_from_to step and
every explore_neighbors continuation returns with visited, the path
buffer, and the weight restored to precisely their entry values (the
invariant is quantified over every valid intermediate state, hence holds
at every recursive step of a search). -/
theorem backtracking_restores (g : t_graph)
    (hnn : ∀ i, i < g.size → ∀ j, j < g.size → g.matrix i j ≠ INIT → 0 ≤ g.matrix i j) :
    (∀ fuel frm tgt (info : t_path_info) (ap : t_path_list), findPRE g frm info →
      g.size + 1 ≤ info.path.length + fuel →
      ∃ ap2, find_all_from_to g fuel frm tgt [] info ap = some ([], info, ap2)) ∧
    (∀ fuel u tgt rem i (info : t_path_info) (ap : t_path_list), explorePRE g u info →
      g.size + 1 ≤ info.path.length + fuel →
      ∃ ap2, explore_neighbors g
          (fun k al inf p => find_all_from_to g fuel k tgt al inf p) u rem i [] info ap =
        some ([], info, ap2)) := by
  constructor
  · intro fuel frm tgt info ap hpre hfuel
    exact ⟨_, (search_spec g hnn fuel).1 frm tgt info ap hpre hfuel⟩
  · intro fuel u tgt rem i info ap hpre hfuel
    exact ⟨_, (search_spec g hnn fuel).2 u tgt rem i info ap hpre hfuel⟩

/-- Shared witness helper: the fresh state entering vertex 0 satisfies the
find invariant on exG1. -/
theorem exG1_findPRE : findPRE exG1 0 (create_path_info 2) := by
  refine ⟨?_, ?_, ?_, ?_, ?_⟩
  · simp [create_path_info]
  · intro x hx
    simp [create_path_info] at hx
    subst hx
    decide
  · simp [create_path_info]
  · simp [create_path_info, pathWeight_single]
  · intro j
    simp [create_path_info]

/-- Claim C3 witness: restoration on exG1 from fresh state. -/
theorem backtracking_restores_witness :
    ((∀ i, i < exG1.size → ∀ j, j < exG1.size → exG1.matrix i j ≠ INIT →
        0 ≤ exG1.matrix i j) ∧
      findPRE exG1 0 (create_path_info 2) ∧
      exG1.size + 1 ≤ (create_path_info 2).path.length + 3) ∧
    (∃ ap2, find_all_from_to exG1 3 0 1 [] (create_path_info 2) create_paths =
      some ([], create_path_info 2, ap2)) :=
  ⟨⟨by decide, exG1_findPRE, by decide⟩,
    (backtracking_restores exG1 (by decide)).1 3 0 1 (create_path_info 2)
      create_paths exG1_findPRE (by decide)⟩

/-- Claim C5: if every stored path of the entering result list has weight
exactly min_len, the same holds for the result list at exit of any
find_all_from_to call satisfying the search invariant (so the stored set
is never mixed-weight at any point of a search); and recording a
strictly better candidate discards the whole stored collection before
inserting the candidate as sole entry. -/
theorem result_set_uniform_weight (g : t_graph)
    (hnn : ∀ i, i < g.size → ∀ j, j < g.size → g.matrix i j ≠ INIT → 0 ≤ g.matrix i j)
    (fuel frm tgt : Nat) (info : t_path_info) (ap : t_path_list)
    (hpre : findPRE g frm info) (hfuel : g.size + 1 ≤ info.path.length + fuel)
    (hinv : listINV g ap) :
    (∃ ap2, find_all_from_to g fuel frm tgt [] info ap = some ([], info, ap2) ∧
      ∀ p ∈ ap2.paths, pathWeight g p = ap2.min_len) ∧
    (info.weight < ap.min_len →
      (reached_destination [] info ap).2 =
        { paths := [info.path], min_len := info.weight }) := by
  constructor
  · refine ⟨_, (search_spec g hnn fuel).1 frm tgt info ap hpre hfuel, ?_⟩
    exact listINV_foldl g _ ap hinv
  · intro h
    simp [reached_destination, add_path, h, List.take_length]

/-- Claim C5 witness: the uniform-weight invariant on exG1 from fresh
state and the discard case on a concrete record. -/
theorem result_set_uniform_weight_witness :
    ((∀ i, i < exG1.size → ∀ j, j < exG1.size → exG1.matrix i j ≠ INIT →
        0 ≤ exG1.matrix i j) ∧
      findPRE exG1 0 (create_path_info 2) ∧
      exG1.size + 1 ≤ (create_path_info 2).path.length + 3 ∧
      listINV exG1 create_paths) ∧
    ((∃ ap2, find_all_from_to exG1 3 0 1 [] (create_path_info 2) create_paths =
        some ([], create_path_info 2, ap2) ∧
        ∀ p ∈ ap2.paths, pathWeight exG1 p = ap2.min_len) ∧
      ((create_path_info 2).weight < create_paths.min_len →
        (reached_destination [] (create_path_info 2) create_paths).2 =
          { paths := [(create_path_info 2).path],
            min_len := (create_path_info 2).weight })) :=
  ⟨⟨by decide, exG1_findPRE, by decide, by intro p hp; simp [create_paths] at hp⟩,
    result_set_uniform_weight exG1 (by decide) 3 0 1 (create_path_info 2)
      create_paths exG1_findPRE (by decide)
      (by intro p hp; simp [create_paths] at hp)⟩

/-- Claim C6 counterexample: on the node list [0, 1], execute_pathfinding
searches only the pair (0, 1); the ordered pair (1, 0) of the two
distinct listed vertices is never searched, because find_all_from starts
its target loop at the cell after the start cell.  This contradicts the
claim that every other listed vertex is used as a target for every
start. -/
theorem execute_pathfinding_pairs_cex :
    (execute_pathfinding ⟨exG1, [0, 1]⟩).map Prod.fst = [(0, 1)] ∧
    (1, 0) ∉ (execute_pathfinding ⟨exG1, [0, 1]⟩).map Prod.fst ∧
    (0 : Nat) ∈ [0, 1] ∧ (1 : Nat) ∈ [0, 1] ∧ (1 : Nat) ≠ 0 :=
  ⟨by decide, by decide, by decide, by decide, by decide⟩

theorem execute_pathfinding_aux_pairs (data : t_data) :
    ∀ (nodes : List Nat) (u v : Nat),
      ((u, v) ∈ (execute_pathfinding_aux data nodes).map Prod.fst ↔
        ∃ i j, i < j ∧ nodes.get? i = some u ∧ nodes.get? j = some v) := by
  intro nodes
  induction nodes with
  | nil =>
      intro u v
      constructor
      · intro h
        simp [execute_pathfinding_aux] at h
      · rintro ⟨i, j, _, hi, _⟩
        simp at hi
  | cons s rest ih =>
      intro u v
      have hsplit : (execute_pathfinding_aux data (s :: rest)).map Prod.fst =
          rest.map (fun tgt => (s, tgt)) ++
            (execute_pathfinding_aux data rest).map Prod.fst := by
        show ((find_all_from data s rest ++ execute_pathfinding_aux data rest).map
          Prod.fst) = _
        rw [List.map_append]
        congr 1
        show (rest.map _).map Prod.fst = _
        rw [List.map_map]
        rfl
      rw [hsplit, List.mem_append]
      constructor
      · rintro (h | h)
        · rcases List.mem_map.mp h with ⟨tgt, htgt, heq⟩
          have hu : s = u := congrArg Prod.fst heq
          have hv : tgt = v := congrArg Prod.snd heq
          subst hu
          subst hv
          rcases List.mem_iff_get?.mp htgt with ⟨k, hk⟩
          exact ⟨0, k + 1, by omega, List.get?_cons_zero, by
            rw [List.get?_cons_succ]; exact hk⟩
        · rcases (ih u v).mp h with ⟨i, j, hij, hi, hj⟩
          exact ⟨i + 1, j + 1, by omega, by rw [List.get?_cons_succ]; exact hi,
            by rw [List.get?_cons_succ]; exact hj⟩
      · rintro ⟨i, j, hij, hi, hj⟩
        cases i with
        | zero =>
            rw [List.get?_cons_zero] at hi
            have hu : s = u := by injection hi
            subst hu
            cases j with
            | zero => omega
            | succ j2 =>
                rw [List.get?_cons_succ] at hj
                left
                exact List.mem_map.mpr ⟨v, List.get?_mem hj, rfl⟩
        | succ i2 =>
            cases j with
            | zero => omega
            | succ j2 =>
                rw [List.get?_cons_succ] at hi hj
                right
                exact (ih u v).mpr ⟨i2, j2, by omega, hi, hj⟩

/-- Claim C6 amended: execute_pathfinding uses every vertex of the node
list as start, and, for each start, exactly the vertices appearing after
it in the list as targets, in list order: the searched ordered pairs are
precisely those (u, v) with u at an earlier list position than v.  Pairs
whose target precedes the start are not searched. -/
theorem execute_pathfinding_pairs (data : t_data) (u v : Nat) :
    (u, v) ∈ (execute_pathfinding data).map Prod.fst ↔
      ∃ i j, i < j ∧ data.nodes.get? i = some u ∧ data.nodes.get? j = some v :=
  execute_pathfinding_aux_pairs data data.nodes u v

/-! ### Termination: fuel equal to the vertex count suffices -/

theorem visited_all (g : t_graph) (l : List Nat) (hn : l.Nodup)
    (hb : ∀ x ∈ l, x < g.size) (hlen : g.size ≤ l.length) :
    ∀ j, j < g.size → j ∈ l := by
  intro j hj
  have h1 : l.toFinset ⊆ Finset.range g.size := by
    intro x hx
    rw [List.mem_toFinset] at hx
    exact Finset.mem_range.mpr (hb x hx)
  have h2 : (Finset.range g.size).card ≤ l.toFinset.card := by
    rw [List.toFinset_card_of_nodup hn, Finset.card_range]
    exact hlen
  have h3 : l.toFinset = Finset.range g.size :=
    Finset.eq_of_subset_of_card_le h1 h2
  have h4 : j ∈ l.toFinset := by
    rw [h3]
    exact Finset.mem_range.mpr hj
  rw [List.mem_toFinset] at h4
  exact h4

/-- Whatever the allocation outcomes, a call of find_all_from_to whose
entering state marks visited exactly the buffer contents (a nodup
in-range list) completes and restores the state, provided the fuel
covers the vertices not yet on the path: depth beyond that is impossible
because each level marks its vertex and the loop never recurses into a
visited vertex. -/
theorem search_terminates_aux (g : t_graph) :
    ∀ fuel : Nat,
      (∀ frm tgt (alloc : List Bool) (info : t_path_info) (ap : t_path_list),
        (info.path ++ [frm]).Nodup → (∀ x ∈ info.path ++ [frm], x < g.size) →
        (∀ j, info.visited j = true ↔ j ∈ info.path) →
        g.size ≤ info.path.length + fuel →
        ∃ alloc2 ap2, find_all_from_to g fuel frm tgt alloc info ap =
          some (alloc2, info, ap2)) ∧
      (∀ u tgt rem i (alloc : List Bool) (info : t_path_info) (ap : t_path_list),
        info.path.Nodup → (∀ x ∈ info.path, x < g.size) →
        (∀ j, info.visited j = true ↔ j ∈ info.path) →
        g.size ≤ info.path.length + fuel →
        ∃ alloc2 ap2, explore_neighbors g
            (fun k al inf p => find_all_from_to g fuel k tgt al inf p)
            u rem i alloc info ap =
          some (alloc2, info, ap2)) := by
  intro fuel
  induction fuel with
  | zero =>
      constructor
      · intro frm tgt alloc info ap hnd hbd hvis hfuel
        exfalso
        have h1 : (info.path ++ [frm]).length ≤ g.size :=
          nodup_length_le g _ hnd hbd
        simp at h1
        omega
      · intro u tgt rem i alloc info ap hnd hbd hvis hfuel
        induction rem generalizing i alloc info ap with
        | zero => exact ⟨alloc, ap, rfl⟩
        | succ rem ihrem =>
            rw [explore_neighbors_succ]
            by_cases hi : i < g.size
            · rw [if_pos hi]
              have hvi : info.visited i = true :=
                (hvis i).mpr (visited_all g info.path hnd hbd hfuel i hi)
              rw [if_neg (by
                rintro ⟨_, h2, _⟩
                rw [hvi] at h2
                simp at h2)]
              exact ihrem i.succ alloc info ap hnd hbd hvis hfuel
            · rw [if_neg hi]
              exact ⟨alloc, ap, rfl⟩
  | succ fuel ihR =>
      have P1 : ∀ frm tgt (alloc : List Bool) (info : t_path_info) (ap : t_path_list),
          (info.path ++ [frm]).Nodup → (∀ x ∈ info.path ++ [frm], x < g.size) →
          (∀ j, info.visited j = true ↔ j ∈ info.path) →
          g.size ≤ info.path.length + (fuel + 1) →
          ∃ alloc2 ap2, find_all_from_to g (fuel + 1) frm tgt alloc info ap =
            some (alloc2, info, ap2) := by
        intro frm tgt alloc info ap hnd hbd hvis hfuel
        obtain ⟨vis, pth, wt⟩ := info
        simp only at hnd hbd hvis hfuel
        have hfrmnotin : frm ∉ pth := by
          rw [List.nodup_append] at hnd
          intro hmem
          exact hnd.2.2 hmem (List.mem_singleton.mpr rfl)
        have hvisfrm : vis frm = false := by
          by_cases h : vis frm = true
          · exact absurd ((hvis frm).mp h) hfrmnotin
          · simpa using h
        have hrestore : (fun j => if j = frm then false
            else if j = frm then true else vis j) = vis := by
          funext j
          by_cases hj : j = frm
          · subst hj
            simp [hvisfrm]
          · simp [hj]
        rw [find_all_from_to_succ]
        by_cases htt : frm = tgt
        · rw [if_pos htt]
          dsimp only
          rw [List.dropLast_concat, hrestore]
          exact ⟨_, _, rfl⟩
        · rw [if_neg htt]
          have hpre2nd : (pth ++ [frm]).Nodup := hnd
          have hexp := (ihR.2) frm tgt g.size 0 alloc
            ⟨fun j => if j = frm then true else vis j, pth ++ [frm], wt⟩ ap
            hpre2nd hbd
            (by
              intro j
              simp only
              by_cases hj : j = frm
              · subst hj
                simp
              · simp [hj, hvis j])
            (by
              have hl : (pth ++ [frm]).length = pth.length + 1 := by simp
              simp only [hl]
              omega)
          rcases hexp with ⟨alloc2, ap2, heq⟩
          rw [heq]
          refine ⟨alloc2, ap2, ?_⟩
          dsimp only
          rw [List.dropLast_concat, hrestore]
      refine ⟨P1, ?_⟩
      intro u tgt rem
      induction rem with
      | zero =>
          intro i alloc info ap hnd hbd hvis hfuel
          exact ⟨alloc, ap, rfl⟩
      | succ rem ihrem =>
          intro i alloc info ap hnd hbd hvis hfuel
          rw [explore_neighbors_succ]
          by_cases hi : i < g.size
          · rw [if_pos hi]
            by_cases hg : g.matrix u i ≠ INIT ∧ info.visited i = false ∧
                info.weight + g.matrix u i ≤ ap.min_len
            · rw [if_pos hg]
              have hinotin : i ∉ info.path := by
                intro hmem
                have := (hvis i).mpr hmem
                rw [hg.2.1] at this
                simp at this
              have hfind := P1 i tgt alloc
                { info with weight := info.weight + g.matrix u i } ap
                (by
                  simp only
                  rw [List.nodup_append]
                  refine ⟨hnd, List.nodup_singleton i, ?_⟩
                  intro a ha hb2
                  rw [List.mem_singleton] at hb2
                  subst hb2
                  exact hinotin ha)
                (by
                  simp only
                  intro x hx
                  rcases List.mem_append.mp hx with hx | hx
                  · exact hbd x hx
                  · rw [List.mem_singleton] at hx; subst hx; exact hi)
                (by
                  intro j
                  simp only
                  exact hvis j)
                (by simpa using hfuel)
              rcases hfind with ⟨alloc2, ap2, heq⟩
              rw [heq]
              dsimp only
              rw [add_sub_cancel_right]
              have hS : (⟨info.visited, info.path, info.weight⟩ : t_path_info) = info := rfl
              rw [hS]
              exact ihrem (i + 1) alloc2 info ap2 hnd hbd hvis hfuel
            · rw [if_neg hg]
              exact ihrem (i + 1) alloc info ap hnd hbd hvis hfuel
          · rw [if_neg hi]
            exact ⟨alloc, ap, rfl⟩

/-- Claim C9: for any allocation outcomes and any fuel of at least the
vertex count V, the search from a valid start on fresh state completes
(returns some rather than exhausting its fuel): the recursion depth
never exceeds V, because each level marks its vertex visited on entry
and the neighbor loop never recurses into a visited vertex. -/
theorem find_all_from_to_terminates (g : t_graph) (s t fuel : Nat)
    (alloc : List Bool) (hs : s < g.size) (hfuel : g.size ≤ fuel) :
    (find_all_from_to g fuel s t alloc (create_path_info g.size)
      create_paths).isSome := by
  have h := (search_terminates_aux g fuel).1 s t alloc (create_path_info g.size)
    create_paths
    (by simp [create_path_info])
    (by
      intro x hx
      simp [create_path_info] at hx
      subst hx
      exact hs)
    (by intro j; simp [create_path_info])
    (by simp [create_path_info]; omega)
  rcases h with ⟨alloc2, ap2, heq⟩
  rw [heq]
  rfl

/-- Claim C9 witness: on exG1 (V = 2) the search from 0 to 1 completes
with fuel exactly V = 2. -/
theorem find_all_from_to_terminates_witness :
    (0 < exG1.size ∧ exG1.size ≤ 2) ∧
    (find_all_from_to exG1 2 0 1 [] (create_path_info exG1.size)
      create_paths).isSome :=
  ⟨⟨by decide, by decide⟩,
    find_all_from_to_terminates exG1 0 1 2 [] (by decide) (by decide)⟩
